import Mathlib

/-!
Verification of the concurrent CIDR-scanning core of `cidr2domains`
(`main.go`), against its natural-language specification.

The shallow embedding below follows `main.go`:

* An `Address` is a 32-bit value, modelled as a `Nat` together with explicit
  `% 2 ^ 32` arithmetic where the Go code relies on fixed-width behaviour.
* `incrementIP` (main.go:77-84) mutates a 4-byte `net.IP` in place; it is
  modelled as a pure function on the list of octets and related to `+ 1`
  modulo `2 ^ 32` on the corresponding integer value.
* The address-enqueue loop of `processCIDR` (main.go:121-128) is modelled by
  `cidrLoop`, a fuel-indexed loop with the exact guard of the source
  (`ipNet.Contains ip`, i.e. `ip &&& mask == network`) and the exact step
  (`incrementIP`, i.e. `+ 1` modulo `2 ^ 32`).
* The worker's filter logic (main.go:104-116), the hostname fetch failure
  handling (main.go:29-74), the per-CIDR job dispatch (main.go:87-93,
  207-210) and the dedup-print loop of `main` (main.go:219-225) are
  modelled by `keepHostname`, `fetchHostnames`/`workerScan`, `runJobs` and
  `aggregate` respectively.
* Concurrency (worker pools, the goroutine scheduler) is modelled
  explicitly: a pool execution is an address-to-worker assignment plus a
  scheduler interleaving (`PoolRun`), and the in-flight lookup discipline is
  a trace of per-worker start/finish events (`runBusy`).
-/

/-! ## CIDR masks and the network address (net.ParseCIDR / net.IP.Mask) -/

/-- The 32-bit value of the IPv4 mask `net.CIDRMask p 32`: the top `p` bits
set, i.e. `2 ^ 32 - 2 ^ (32 - p)`. -/
def cidrMask (p : Nat) : Nat := 2 ^ 32 - 2 ^ (32 - p)

/-- The network address of a CIDR: the supplied address bitwise-ANDed with
the mask, as computed by `ipNet.IP.Mask(ipNet.Mask)` in main.go:121. -/
def network (a p : Nat) : Nat := a &&& cidrMask p

/-- The guard of the enqueue loop in main.go:121: `ipNet.Contains ip`
checks `ip &&& mask == network`. -/
def containsIP (net mask x : Nat) : Bool := x &&& mask == net

/-! ## incrementIP (main.go:77-84) on octet lists -/

/-- One step of `incrementIP` on a little-endian octet list: increment the
low octet modulo 256 (Go `byte` wraps) and carry into the rest exactly when
it wrapped to zero (`if ip[j] > 0 break`). -/
def incrementLE : List Nat → List Nat
  | [] => []
  | b :: rest =>
    if (b + 1) % 256 = 0 then (b + 1) % 256 :: incrementLE rest
    else (b + 1) % 256 :: rest

/-- `incrementIP` from main.go:77-84: the in-place loop runs from the last
octet towards the first, so on the big-endian octet list of a `net.IP` it is
`incrementLE` on the reversed list. -/
def incrementIP (ip : List Nat) : List Nat := (incrementLE ip.reverse).reverse

/-- Integer value of a little-endian octet list. -/
def ofLE : List Nat → Nat
  | [] => 0
  | b :: rest => b + 256 * ofLE rest

/-- Integer value of a big-endian octet list, as a `net.IP` stores it. -/
def ipValue (ip : List Nat) : Nat := ofLE ip.reverse

theorem ofLE_lt : ∀ l : List Nat, (∀ b ∈ l, b < 256) → ofLE l < 256 ^ l.length := by
  intro l
  induction l with
  | nil => intro _; simp [ofLE]
  | cons b rest ih =>
    intro hb
    have hb0 : b < 256 := hb b (by simp)
    have hr : ofLE rest < 256 ^ rest.length := ih fun x hx => hb x (by simp [hx])
    simp only [ofLE, List.length_cons, pow_succ]
    calc b + 256 * ofLE rest < 256 + 256 * ofLE rest := by omega
    _ = 256 * (ofLE rest + 1) := by ring
    _ ≤ 256 * 256 ^ rest.length := by
        exact Nat.mul_le_mul_left _ (by omega)
    _ = 256 ^ rest.length * 256 := by ring

theorem ofLE_incrementLE : ∀ l : List Nat, (∀ b ∈ l, b < 256) →
    ofLE (incrementLE l) = (ofLE l + 1) % 256 ^ l.length := by
  intro l
  induction l with
  | nil => intro _; simp [incrementLE, ofLE]
  | cons b rest ih =>
    intro hb
    have hb0 : b < 256 := hb b (by simp)
    have hr : ofLE rest < 256 ^ rest.length := ofLE_lt rest fun x hx => hb x (by simp [hx])
    by_cases hwrap : (b + 1) % 256 = 0
    · have hb255 : b = 255 := by omega
      subst hb255
      simp only [incrementLE, if_pos hwrap, ofLE, hwrap,
        ih (fun x hx => hb x (by simp [hx])), List.length_cons, pow_succ]
      rw [Nat.zero_add]
      have : 255 + 256 * ofLE rest + 1 = 256 * (ofLE rest + 1) := by ring
      rw [this, Nat.mul_comm (256 ^ rest.length) 256, Nat.mul_mod_mul_left]
    · have hlt : b + 1 < 256 := by omega
      have hmod : (b + 1) % 256 = b + 1 := Nat.mod_eq_of_lt hlt
      simp only [incrementLE, if_neg hwrap, ofLE, hmod, List.length_cons, pow_succ]
      have hsmall : b + 256 * ofLE rest + 1 < 256 ^ rest.length * 256 := by
        calc b + 256 * ofLE rest + 1 < 256 * (ofLE rest + 1) := by omega
        _ ≤ 256 * 256 ^ rest.length := Nat.mul_le_mul_left _ (by omega)
        _ = 256 ^ rest.length * 256 := by ring
      rw [Nat.mod_eq_of_lt hsmall]
      ring

theorem incrementLE_length : ∀ l : List Nat, (incrementLE l).length = l.length := by
  intro l
  induction l with
  | nil => rfl
  | cons b rest ih =>
    by_cases hwrap : (b + 1) % 256 = 0
    · simp [incrementLE, if_pos hwrap, ih]
    · simp [incrementLE, if_neg hwrap]

/-- `incrementIP` is `+ 1` modulo `256 ^ n` on the value of an `n`-octet IP:
in particular `+ 1` modulo `2 ^ 32` on a 4-byte IPv4 address, wrapping
255.255.255.255 back to 0.0.0.0. -/
theorem incrementIP_value (ip : List Nat) (hb : ∀ b ∈ ip, b < 256) :
    ipValue (incrementIP ip) = (ipValue ip + 1) % 256 ^ ip.length := by
  have hrev : ∀ b ∈ ip.reverse, b < 256 := fun b hbm => hb b (List.mem_reverse.mp hbm)
  simp only [ipValue, incrementIP, List.reverse_reverse]
  rw [ofLE_incrementLE ip.reverse hrev, List.length_reverse]

/-! ## The address-enqueue loop of processCIDR (main.go:121-128)

The source loop is
`for ip := network; ipNet.Contains(ip); incrementIP(ip) { enqueue(ip) }`.
`cidrLoop` is that loop with an explicit fuel bound: `some l` means the
loop exits after enqueuing exactly the addresses in `l`; `none` means the
loop is still running when the fuel runs out.  The loop terminates (for
some order of enqueueing) iff some fuel returns `some`. -/

def cidrLoop (net mask : Nat) : Nat → Nat → Option (List Nat)
  | 0, _ => none
  | fuel + 1, x =>
    if containsIP net mask x then
      (cidrLoop net mask fuel ((x + 1) % 2 ^ 32)).map (x :: ·)
    else some []

/-- The enqueue loop of `processCIDR` terminates on the given start address. -/
def loopTerminates (net mask x : Nat) : Prop :=
  ∃ fuel l, cidrLoop net mask fuel x = some l

/-! ## Mask arithmetic -/

/-- Bitwise AND with the high mask `2 ^ 32 - 2 ^ s` clears the low `s` bits:
on values below `2 ^ 32` it is `x / 2 ^ s * 2 ^ s`. -/
theorem and_high_mask (s x : Nat) (hs : s ≤ 32) (hx : x < 2 ^ 32) :
    x &&& (2 ^ 32 - 2 ^ s) = x / 2 ^ s * 2 ^ s := by
  have hmask : (2 : Nat) ^ 32 - 2 ^ s = (2 ^ (32 - s) - 1) <<< s := by
    rw [Nat.shiftLeft_eq, Nat.sub_mul, ← Nat.pow_add, Nat.sub_add_cancel hs, one_mul]
  have hrhs : x / 2 ^ s * 2 ^ s = (x >>> s) <<< s := by
    rw [Nat.shiftLeft_eq, Nat.shiftRight_eq_div_pow]
  rw [hmask, hrhs]
  apply Nat.eq_of_testBit_eq
  intro i
  simp only [Nat.testBit_and, Nat.testBit_shiftLeft, Nat.testBit_shiftRight,
    Nat.testBit_two_pow_sub_one]
  by_cases hsi : s ≤ i
  · have h1 : (decide (i ≥ s)) = true := by simp [ge_iff_le, hsi]
    have h2 : s + (i - s) = i := by omega
    by_cases hi32 : i < 32
    · have h3 : (decide (i - s < 32 - s)) = true := by simp; omega
      simp [h1, h2, h3]
    · have h3 : (decide (i - s < 32 - s)) = false := by simp; omega
      have hxi : x.testBit i = false := by
        apply Nat.testBit_lt_two_pow
        calc x < 2 ^ 32 := hx
        _ ≤ 2 ^ i := Nat.pow_le_pow_right (by norm_num) (by omega)
      simp [h1, h2, h3, hxi]
  · have h1 : (decide (i ≥ s)) = false := by simp [ge_iff_le, hsi]
    simp [h1]

/-- The network address is the start of the aligned block:
`a / 2 ^ (32 - p) * 2 ^ (32 - p)`. -/
theorem network_eq (a p : Nat) (hp : p ≤ 32) (ha : a < 2 ^ 32) :
    network a p = a / 2 ^ (32 - p) * 2 ^ (32 - p) :=
  and_high_mask (32 - p) a (by omega) ha

/-- Every address of the block passes the `Contains` guard. -/
theorem containsIP_in_block (a p i : Nat) (hp : p ≤ 32) (ha : a < 2 ^ 32)
    (hi : i < 2 ^ (32 - p)) :
    containsIP (network a p) (cidrMask p) (network a p + i) = true := by
  set s := 32 - p with hs
  set k := a / 2 ^ s with hk
  have hn : network a p = k * 2 ^ s := network_eq a p hp ha
  have hklt : k < 2 ^ p := by
    rw [hk]
    apply Nat.div_lt_of_lt_mul
    calc a < 2 ^ 32 := ha
    _ = 2 ^ s * 2 ^ p := by rw [← Nat.pow_add]; congr 1; omega
  have hlt : network a p + i < 2 ^ 32 := by
    rw [hn]
    calc k * 2 ^ s + i < k * 2 ^ s + 2 ^ s := by omega
    _ = (k + 1) * 2 ^ s := by ring
    _ ≤ 2 ^ p * 2 ^ s := Nat.mul_le_mul_right _ (by omega)
    _ = 2 ^ 32 := by rw [← Nat.pow_add]; congr 1; omega
  have hdiv : (network a p + i) / 2 ^ s = k := by
    rw [hn, Nat.mul_comm k, Nat.mul_add_div (Nat.pos_pow_of_pos s (by norm_num)),
      Nat.div_eq_of_lt hi, Nat.add_zero]
  simp only [containsIP, cidrMask, beq_iff_eq, ← hs]
  rw [and_high_mask s _ (by omega) hlt, hdiv, ← hn]

/-- The first address past the block (taken modulo `2 ^ 32`, as
`incrementIP` computes it) fails the `Contains` guard — provided the prefix
is at least 1, so that the mask is nonzero. -/
theorem containsIP_past_block (a p : Nat) (hp1 : 1 ≤ p) (hp : p ≤ 32)
    (ha : a < 2 ^ 32) :
    containsIP (network a p) (cidrMask p)
      ((network a p + 2 ^ (32 - p)) % 2 ^ 32) = false := by
  set s := 32 - p with hs
  set k := a / 2 ^ s with hk
  have hn : network a p = k * 2 ^ s := network_eq a p hp ha
  have hklt : k < 2 ^ p := by
    rw [hk]
    apply Nat.div_lt_of_lt_mul
    calc a < 2 ^ 32 := ha
    _ = 2 ^ s * 2 ^ p := by rw [← Nat.pow_add]; congr 1; omega
  have hspos : 0 < 2 ^ s := Nat.pos_pow_of_pos s (by norm_num)
  have hsum : network a p + 2 ^ s = (k + 1) * 2 ^ s := by rw [hn]; ring
  simp only [containsIP, cidrMask, beq_eq_false_iff_ne, ne_eq, ← hs]
  by_cases hend : k + 1 = 2 ^ p
  · have h32 : network a p + 2 ^ s = 2 ^ 32 := by
      rw [hsum, hend, ← Nat.pow_add]; congr 1; omega
    rw [h32, Nat.mod_self, Nat.zero_and, hn]
    have hk1 : 1 ≤ k := by
      have : 2 ≤ 2 ^ p := by
        calc 2 = 2 ^ 1 := rfl
        _ ≤ 2 ^ p := Nat.pow_le_pow_right (by norm_num) hp1
      omega
    have : 0 < k * 2 ^ s := Nat.mul_pos (by omega) hspos
    omega
  · have hlt : network a p + 2 ^ s < 2 ^ 32 := by
      calc network a p + 2 ^ s = (k + 1) * 2 ^ s := hsum
      _ < 2 ^ p * 2 ^ s := by
          exact (Nat.mul_lt_mul_right hspos).mpr (by omega)
      _ = 2 ^ 32 := by rw [← Nat.pow_add]; congr 1; omega
    rw [Nat.mod_eq_of_lt hlt, and_high_mask s _ (by omega) hlt]
    have hdiv : (network a p + 2 ^ s) / 2 ^ s = k + 1 := by
      rw [hsum, Nat.mul_div_cancel _ hspos]
    rw [hdiv, hn]
    intro hcontra
    have := Nat.eq_of_mul_eq_mul_right hspos hcontra
    omega

/-! ## Behaviour of the enqueue loop -/

/-- Generic run of the enqueue loop: if the guard holds for the first `c`
addresses reached from `x` (stepping by `+ 1` modulo `2 ^ 32`) and fails for
the next one, the loop exits after enqueuing exactly those `c` addresses,
for any fuel above `c`. -/
theorem cidrLoop_run (net mask : Nat) :
    ∀ (c x fuel : Nat), x < 2 ^ 32 → c < fuel →
      (∀ i, i < c → containsIP net mask ((x + i) % 2 ^ 32) = true) →
      containsIP net mask ((x + c) % 2 ^ 32) = false →
      cidrLoop net mask fuel x =
        some ((List.range c).map (fun i => (x + i) % 2 ^ 32)) := by
  intro c
  induction c with
  | zero =>
    intro x fuel hx hfuel _ hout
    obtain ⟨f, rfl⟩ : ∃ f, fuel = f + 1 := ⟨fuel - 1, by omega⟩
    have hguard : containsIP net mask x = false := by
      have := hout
      rwa [Nat.add_zero, Nat.mod_eq_of_lt hx] at this
    simp [cidrLoop, hguard]
  | succ c ih =>
    intro x fuel hx hfuel hin hout
    obtain ⟨f, rfl⟩ : ∃ f, fuel = f + 1 := ⟨fuel - 1, by omega⟩
    have hguard : containsIP net mask x = true := by
      have := hin 0 (by omega)
      rwa [Nat.add_zero, Nat.mod_eq_of_lt hx] at this
    have hx' : (x + 1) % 2 ^ 32 < 2 ^ 32 := Nat.mod_lt _ (by norm_num)
    have hshift : ∀ j, ((x + 1) % 2 ^ 32 + j) % 2 ^ 32 = (x + (j + 1)) % 2 ^ 32 := by
      intro j
      rw [Nat.mod_add_mod]
      congr 1
      omega
    have htail := ih ((x + 1) % 2 ^ 32) f hx' (by omega)
      (fun i hi => by rw [hshift i]; exact hin (i + 1) (by omega))
      (by rw [hshift c]; exact hout)
    have hlist : (List.range (c + 1)).map (fun i => (x + i) % 2 ^ 32)
        = x :: (List.range c).map (fun i => ((x + 1) % 2 ^ 32 + i) % 2 ^ 32) := by
      rw [List.range_succ_eq_map]
      simp only [List.map_cons, List.map_map]
      refine congrArg₂ List.cons ?_ ?_
      · rw [Nat.add_zero, Nat.mod_eq_of_lt hx]
      · apply List.map_congr_left
        intro i _
        simp only [Function.comp_apply]
        rw [hshift i]
    rw [hlist]
    simp only [cidrLoop, hguard, if_true, htail]
    rfl

/-- With a zero mask — prefix length 0 — the `Contains` guard is true for
every address, so the enqueue loop never exits, for any amount of fuel. -/
theorem cidrLoop_mask_zero (fuel : Nat) : ∀ x, cidrLoop 0 0 fuel x = none := by
  induction fuel with
  | zero => intro x; rfl
  | succ f ih =>
    intro x
    have hguard : containsIP 0 0 x = true := by
      simp [containsIP]
    simp [cidrLoop, hguard, ih]

/-- Addresses of the block stay below `2 ^ 32`. -/
theorem network_add_lt (a p i : Nat) (hp : p ≤ 32) (ha : a < 2 ^ 32)
    (hi : i < 2 ^ (32 - p)) : network a p + i < 2 ^ 32 := by
  set s := 32 - p with hs
  set k := a / 2 ^ s with hk
  have hn : network a p = k * 2 ^ s := network_eq a p hp ha
  have hklt : k < 2 ^ p := by
    rw [hk]
    apply Nat.div_lt_of_lt_mul
    calc a < 2 ^ 32 := ha
    _ = 2 ^ s * 2 ^ p := by rw [← Nat.pow_add]; congr 1; omega
  rw [hn]
  calc k * 2 ^ s + i < k * 2 ^ s + 2 ^ s := by omega
  _ = (k + 1) * 2 ^ s := by ring
  _ ≤ 2 ^ p * 2 ^ s := Nat.mul_le_mul_right _ (by omega)
  _ = 2 ^ 32 := by rw [← Nat.pow_add]; congr 1; omega

/-- Claim C1 (code_bug evidence): the enqueue loop of `processCIDR` does
depend on address-value wraparound, and for prefix length 0 it never
terminates.  The mask of a `/0` descriptor is 0, so `ipNet.Contains` is
true for every address: whatever the fuel and the current address, the
loop is still running — it wraps past 255.255.255.255 back to 0.0.0.0
instead of stopping, contradicting the claim that it stops after the
maximum 32-bit address. -/
theorem processCIDR_slash0_never_terminates :
    ∀ fuel x, cidrLoop (network 0 0) (cidrMask 0) fuel x = none := by
  have hm : cidrMask 0 = 0 := by norm_num [cidrMask]
  have hn : network 0 0 = 0 := by simp [network, hm]
  intro fuel x
  rw [hm, hn]
  exact cidrLoop_mask_zero fuel x

/-- Claim C2 (counterexample): at prefix length 0 the range expansion of
`processCIDR` does not produce a sequence of `2 ^ 32` addresses — it does
not terminate at all, for any fuel, so the claimed property fails at
`p = 0` (descriptor `0.0.0.0/0`). -/
theorem expansion_slash0_no_sequence :
    ¬ loopTerminates (network 0 0) (cidrMask 0) (network 0 0) := by
  rintro ⟨fuel, l, h⟩
  have hm : cidrMask 0 = 0 := by norm_num [cidrMask]
  have hn : network 0 0 = 0 := by simp [network, hm]
  rw [hm, hn, cidrLoop_mask_zero fuel 0] at h
  exact Option.noConfusion h

/-- Claim C2 (amended to prefix lengths 1..32): for every valid descriptor
with prefix length `p` in `[1, 32]`, the enqueue loop of `processCIDR`
terminates and enqueues a strictly increasing, duplicate-free sequence of
exactly `2 ^ (32 - p)` addresses, starting at the network address
(the supplied address bitwise-ANDed with the mask), ending at the range's
last address, with no omissions. -/
theorem rangeExpander_expansion (a p fuel : Nat) (hp1 : 1 ≤ p) (hp2 : p ≤ 32)
    (ha : a < 2 ^ 32) (hfuel : 2 ^ (32 - p) < fuel) :
    ∃ l, cidrLoop (network a p) (cidrMask p) fuel (network a p) = some l ∧
      l = (List.range (2 ^ (32 - p))).map (fun i => network a p + i) ∧
      l.length = 2 ^ (32 - p) ∧
      l.Chain' (· < ·) ∧
      l.Nodup ∧
      l.head? = some (network a p) ∧
      l.getLast? = some (network a p + (2 ^ (32 - p) - 1)) ∧
      (∀ x, x ∈ l ↔ network a p ≤ x ∧ x < network a p + 2 ^ (32 - p)) := by
  set s := 32 - p with hs
  have hnlt : network a p < 2 ^ 32 := by
    have hle : network a p ≤ a := Nat.and_le_left
    omega
  have hrun := cidrLoop_run (network a p) (cidrMask p) (2 ^ s) (network a p) fuel hnlt hfuel
    (fun i hi => by
      rw [Nat.mod_eq_of_lt (network_add_lt a p i hp2 ha hi)]
      exact containsIP_in_block a p i hp2 ha hi)
    (containsIP_past_block a p hp1 hp2 ha)
  have hmap : (List.range (2 ^ s)).map (fun i => (network a p + i) % 2 ^ 32)
      = (List.range (2 ^ s)).map (fun i => network a p + i) := by
    apply List.map_congr_left
    intro i hi
    exact Nat.mod_eq_of_lt (network_add_lt a p i hp2 ha (List.mem_range.mp hi))
  rw [hmap] at hrun
  have hpos : 0 < 2 ^ s := Nat.pos_pow_of_pos s (by norm_num)
  obtain ⟨m, hm⟩ : ∃ m, 2 ^ s = m + 1 := ⟨2 ^ s - 1, by omega⟩
  have hpw : ((List.range (2 ^ s)).map (fun i => network a p + i)).Pairwise (· < ·) := by
    rw [List.pairwise_map]
    exact (List.pairwise_lt_range (2 ^ s)).imp (fun h => by omega)
  refine ⟨_, hrun, rfl, by simp, hpw.chain', hpw.imp (fun h => Nat.ne_of_lt h), ?_, ?_, ?_⟩
  · rw [hm, List.range_succ_eq_map]
    simp
  · rw [hm, List.range_succ, List.map_append]
    simp [List.getLast?_concat]
  · intro x
    simp only [List.mem_map, List.mem_range]
    constructor
    · rintro ⟨i, hi, rfl⟩
      omega
    · rintro ⟨h1, h2⟩
      exact ⟨x - network a p, by omega, by omega⟩

/-- Witness for the amended claim C2 at the concrete descriptor
10.0.0.0/30 (address 167772160, prefix 30, 4 addresses, fuel 5). -/
theorem rangeExpander_expansion_witness :
    ∃ l, cidrLoop (network 167772160 30) (cidrMask 30) 5 (network 167772160 30) = some l ∧
      l.length = 2 ^ (32 - 30) ∧ l.head? = some (network 167772160 30) := by
  obtain ⟨l, h1, _, h3, _, _, h6, _, _⟩ :=
    rangeExpander_expansion 167772160 30 5 (by decide) (by decide) (by decide) (by decide)
  exact ⟨l, h1, h3, h6⟩

/-! ## Worker count (main.go:22) -/

/-- The default of the `-c` flag in main.go:22: the worker count used for
every job when the caller does not configure it. -/
def concurrencyDefault : Nat := 5

/-- Claim C3 (counterexample): the worker count of a scan worker pool does
not default to 100. -/
theorem concurrencyDefault_ne_100 : concurrencyDefault ≠ 100 := by decide

/-- Claim C3 (amended): the worker count of a scan worker pool defaults
to 5 when the caller does not configure it. -/
theorem concurrencyDefault_eq_5 : concurrencyDefault = 5 := rfl

/-! ## Regex filters and the worker's filter logic (main.go:104-116, 181-189) -/

/-- The worker's per-hostname decision (main.go:106-115): drop the hostname
when the exclude regex is present and matches, drop it when the include
regex is present and does not match, otherwise forward it to the result
channel.  A compiled regex is modelled as its match predicate
`String → Bool`; an absent (`nil`) regex is `none`. -/
def keepHostname (filt matchP : Option (String → Bool)) (h : String) : Bool :=
  if (match filt with | some f => f h | none => false) then false
  else if (match matchP with | some m => !(m h) | none => false) then false
  else true

/-- The spec's wording of the exclude side of the filter law: the exclude
pattern is absent or the hostname does not match it. -/
def excludeAbsentOrNoMatch (filt : Option (String → Bool)) (h : String) : Bool :=
  match filt with
  | none => true
  | some f => !(f h)

/-- The spec's wording of the include side of the filter law: the include
pattern is absent or the hostname matches it. -/
def includeAbsentOrMatch (matchP : Option (String → Bool)) (h : String) : Bool :=
  match matchP with
  | none => true
  | some m => m h

/-- Claim C5: the filter law.  A hostname returned by Lookup is forwarded
to the shared result sink iff (the exclude pattern is absent or the
hostname does not match it) and (the include pattern is absent or the
hostname matches it). -/
theorem keepHostname_filter_law (filt matchP : Option (String → Bool)) (h : String) :
    keepHostname filt matchP h =
      (excludeAbsentOrNoMatch filt h && includeAbsentOrMatch matchP h) := by
  cases filt with
  | none =>
    cases matchP with
    | none => rfl
    | some m => simp [keepHostname, excludeAbsentOrNoMatch, includeAbsentOrMatch]
  | some f =>
    cases matchP with
    | none => simp [keepHostname, excludeAbsentOrNoMatch, includeAbsentOrMatch]
    | some m =>
      simp only [keepHostname, excludeAbsentOrNoMatch, includeAbsentOrMatch]
      by_cases hf : f h = true <;> by_cases hm : m h = true <;> simp [hf, hm]

/-- Filter compilation in `main` (main.go:181-189): a pattern flag is
compiled only when it is a nonempty string; an empty flag leaves the
corresponding regex `nil`.  `compile` stands for
`regexp.MustCompile(..).MatchString`. -/
def compileFilters (filterFlag matchFlag : String) (compile : String → (String → Bool)) :
    Option (String → Bool) × Option (String → Bool) :=
  ((if filterFlag ≠ "" then some (compile filterFlag) else none),
   (if matchFlag ≠ "" then some (compile matchFlag) else none))

/-- Claim C10: an empty exclude or include pattern flag is treated as an
absent filter — the regex is never compiled, the worker's corresponding
check passes every hostname, and with both flags empty every hostname is
kept. -/
theorem empty_pattern_flag_absent (compile : String → String → Bool)
    (fr mr h : String) (filt matchP : Option (String → Bool)) :
    (compileFilters "" mr compile).1 = none ∧
    (compileFilters fr "" compile).2 = none ∧
    keepHostname none matchP h = includeAbsentOrMatch matchP h ∧
    keepHostname filt none h = excludeAbsentOrNoMatch filt h ∧
    keepHostname none none h = true := by
  refine ⟨by simp [compileFilters], by simp [compileFilters], ?_, ?_, rfl⟩
  · cases matchP with
    | none => rfl
    | some m => simp [keepHostname, includeAbsentOrMatch]
  · cases filt with
    | none => rfl
    | some f => simp [keepHostname, excludeAbsentOrNoMatch]

/-! ## Lookup outcomes and the worker loop (main.go:29-74, 102-117) -/

/-- The possible outcomes of one `fetchHostnamesFromShodan` call
(main.go:29-74): a connection error, a non-200 status, an unparseable
response body, or a successful parse yielding a hostname list. -/
inductive LookupOutcome where
  | connError
  | badStatus (code : Nat)
  | parseError
  | ok (hostnames : List String)

/-- What `fetchHostnamesFromShodan` returns for each outcome: `nil` — which
ranges as the empty list — on every failure path (main.go:39, 47, 55), and
the parsed hostnames on success (main.go:73). -/
def fetchHostnames : LookupOutcome → List String
  | .ok hs => hs
  | _ => []

/-- Whether the outcome is one of the three failure paths. -/
def LookupOutcome.isFailure : LookupOutcome → Bool
  | .ok _ => false
  | _ => true

/-- The sequence of hostnames a single worker forwards to the result
channel while draining the given addresses in order (the loop body at
main.go:104-116): per address, the lookup's hostnames filtered by
`keepHostname`. -/
def lookupFilterScan (L : Nat → List String) (filt matchP : Option (String → Bool)) :
    List Nat → List String
  | [] => []
  | ip :: rest =>
    (L ip).filter (keepHostname filt matchP) ++ lookupFilterScan L filt matchP rest

/-- The same worker loop, with the lookup given by its outcome: failures
yield `nil` exactly as `fetchHostnamesFromShodan` does. -/
def workerScan (o : Nat → LookupOutcome) (filt matchP : Option (String → Bool))
    (ips : List Nat) : List String :=
  lookupFilterScan (fun ip => fetchHostnames (o ip)) filt matchP ips

theorem lookupFilterScan_append (L : Nat → List String)
    (filt matchP : Option (String → Bool)) :
    ∀ ips1 ips2, lookupFilterScan L filt matchP (ips1 ++ ips2) =
      lookupFilterScan L filt matchP ips1 ++ lookupFilterScan L filt matchP ips2 := by
  intro ips1 ips2
  induction ips1 with
  | nil => simp [lookupFilterScan]
  | cons ip rest ih => simp [lookupFilterScan, ih]

/-- Claim C6: a failed Lookup call is equivalent to a Lookup returning an
empty hostname list — `fetchHostnamesFromShodan` returns the same value on
every failure path as on a success with no hostnames — and the worker
continues: its output over a job whose addresses include a failing one is
exactly the output over the addresses before it followed by the output
over all remaining addresses, so no later address is skipped and nothing
is retried. -/
theorem lookup_failure_is_empty (o : Nat → LookupOutcome)
    (filt matchP : Option (String → Bool)) (ips1 ips2 : List Nat) (ip : Nat)
    (hfail : (o ip).isFailure = true) :
    fetchHostnames (o ip) = fetchHostnames (.ok []) ∧
    workerScan o filt matchP (ips1 ++ ip :: ips2) =
      workerScan o filt matchP ips1 ++ workerScan o filt matchP ips2 := by
  have hempty : fetchHostnames (o ip) = [] := by
    cases ho : o ip <;> simp_all [LookupOutcome.isFailure, fetchHostnames]
  refine ⟨by rw [hempty]; rfl, ?_⟩
  simp only [workerScan, lookupFilterScan_append, lookupFilterScan, hempty,
    List.filter_nil, List.nil_append]

/-- Witness for C6: a connection-error outcome at address 3, between
addresses 1 and 2, with no filters. -/
theorem lookup_failure_is_empty_witness :
    fetchHostnames ((fun _ => LookupOutcome.connError) 3) = fetchHostnames (.ok []) ∧
    workerScan (fun _ => LookupOutcome.connError) none none ([1] ++ 3 :: [2]) =
      workerScan (fun _ => LookupOutcome.connError) none none [1] ++
        workerScan (fun _ => LookupOutcome.connError) none none [2] :=
  lookup_failure_is_empty (fun _ => LookupOutcome.connError) none none [1] [2] 3 rfl

/-! ## The result aggregator (main.go:219-225) -/

/-- The dedup-print loop of `main`: `seen` is the `uniqueResults` set
(as the list of hostnames inserted so far) and the result is the sequence
of lines printed while draining the rest of the channel. -/
def aggregate : List String → List String → List String
  | _, [] => []
  | seen, h :: rest =>
    if h ∈ seen then aggregate seen rest
    else h :: aggregate (h :: seen) rest

theorem mem_aggregate : ∀ (l seen : List String) (x : String),
    x ∈ aggregate seen l ↔ x ∈ l ∧ x ∉ seen := by
  intro l
  induction l with
  | nil => intro seen x; simp [aggregate]
  | cons a as ih =>
    intro seen x
    by_cases ha : a ∈ seen
    · rw [aggregate, if_pos ha, ih]
      constructor
      · rintro ⟨hx, hn⟩
        exact ⟨List.mem_cons_of_mem a hx, hn⟩
      · rintro ⟨hx, hn⟩
        rcases List.mem_cons.mp hx with rfl | hx
        · exact absurd ha hn
        · exact ⟨hx, hn⟩
    · rw [aggregate, if_neg ha]
      constructor
      · intro hx
        rcases List.mem_cons.mp hx with rfl | hx
        · exact ⟨List.mem_cons_self _ _, ha⟩
        · obtain ⟨h1, h2⟩ := (ih (a :: seen) x).mp hx
          exact ⟨List.mem_cons_of_mem a h1,
            fun hc => h2 (List.mem_cons_of_mem a hc)⟩
      · rintro ⟨hx, hn⟩
        rcases List.mem_cons.mp hx with rfl | hx
        · exact List.mem_cons_self x _
        · by_cases hxa : x = a
          · subst hxa; exact List.mem_cons_self x _
          · exact List.mem_cons_of_mem a ((ih (a :: seen) x).mpr
              ⟨hx, by simp [List.mem_cons, hxa, hn]⟩)

theorem aggregate_nodup : ∀ (l seen : List String), (aggregate seen l).Nodup := by
  intro l
  induction l with
  | nil => intro seen; simp [aggregate]
  | cons a as ih =>
    intro seen
    by_cases ha : a ∈ seen
    · rw [aggregate, if_pos ha]; exact ih seen
    · rw [aggregate, if_neg ha]
      refine List.nodup_cons.mpr ⟨?_, ih (a :: seen)⟩
      intro hmem
      exact ((mem_aggregate as (a :: seen) a).mp hmem).2 (List.mem_cons_self a seen)

theorem aggregate_sublist : ∀ (l seen : List String), (aggregate seen l).Sublist l := by
  intro l
  induction l with
  | nil => intro seen; simp [aggregate]
  | cons a as ih =>
    intro seen
    by_cases ha : a ∈ seen
    · rw [aggregate, if_pos ha]; exact (ih seen).cons a
    · rw [aggregate, if_neg ha]; exact (ih (a :: seen)).cons₂ a

theorem aggregate_eq_eraseDups_loop :
    ∀ (l bs : List String), List.eraseDups.loop l bs = bs.reverse ++ aggregate bs l := by
  intro l
  induction l with
  | nil => intro bs; simp [List.eraseDups.loop, aggregate]
  | cons a as ih =>
    intro bs
    by_cases ha : a ∈ bs
    · have he : bs.elem a = true := List.elem_eq_true_of_mem ha
      rw [List.eraseDups.loop, he, ih bs, aggregate, if_pos ha]
    · have he : bs.elem a = false := by
        cases hb : bs.elem a
        · rfl
        · exact absurd (List.mem_of_elem_eq_true hb) ha
      rw [List.eraseDups.loop, he, ih (a :: bs), aggregate, if_neg ha]
      simp [List.reverse_cons, List.append_assoc]

/-- Claim C4: for every sequence of hostnames arriving on the shared result
channel — any interleaving, from any number of jobs and workers, is some
such sequence — the dedup-print loop of `main` emits exactly
`List.eraseDups` of the arrivals: each distinct hostname exactly once, at
its first arrival; the emitted sequence is duplicate-free, mentions exactly
the hostnames that arrived, and is a sublist (subsequence) of the arrival order, so
nothing is emitted before its first arrival and emission order equals
arrival order. -/
theorem aggregator_dedup (arrivals : List String) :
    aggregate [] arrivals = arrivals.eraseDups ∧
    (aggregate [] arrivals).Nodup ∧
    (∀ h, h ∈ aggregate [] arrivals ↔ h ∈ arrivals) ∧
    (aggregate [] arrivals).Sublist arrivals := by
  refine ⟨?_, aggregate_nodup arrivals [], ?_, aggregate_sublist arrivals []⟩
  · rw [List.eraseDups, aggregate_eq_eraseDups_loop arrivals []]
    rfl
  · intro h
    rw [mem_aggregate]
    simp

/-! ## Per-CIDR job dispatch (main.go:87-93, 207-210) -/

/-- One `processCIDR` call at the descriptor-parsing level (main.go:88-93):
`parse` stands for `net.ParseCIDR` (an external collaborator), yielding the
descriptor (address, prefix length) or `none` for a malformed string;
`scan` stands for the whole pool run over the parsed descriptor.  The
result is (hostnames sent to the result channel, lines written to the
diagnostic stream): a malformed descriptor sends nothing and reports the
error on stderr (main.go:91), then returns. -/
def runJob (parse : String → Option (Nat × Nat)) (scan : Nat × Nat → List String)
    (cidr : String) : List String × List String :=
  match parse cidr with
  | none => ([], ["Error parsing CIDR " ++ cidr])
  | some d => (scan d, [])

/-- The job list of `main` (main.go:207-210): one job per descriptor
string, every one of them started.  The first component collects each
job's own result-channel output (per job, in list order); the second
collects the diagnostic lines. -/
def runJobs (parse : String → Option (Nat × Nat)) (scan : Nat × Nat → List String) :
    List String → List (List String) × List String
  | [] => ([], [])
  | c :: rest =>
    ((runJob parse scan c).1 :: (runJobs parse scan rest).1,
     (runJob parse scan c).2 ++ (runJobs parse scan rest).2)

theorem runJobs_append (parse : String → Option (Nat × Nat))
    (scan : Nat × Nat → List String) :
    ∀ l1 l2, runJobs parse scan (l1 ++ l2) =
      ((runJobs parse scan l1).1 ++ (runJobs parse scan l2).1,
       (runJobs parse scan l1).2 ++ (runJobs parse scan l2).2) := by
  intro l1 l2
  induction l1 with
  | nil => simp [runJobs]
  | cons c rest ih => simp [runJobs, ih]

/-- Claim C7: a malformed descriptor is reported on the diagnostic stream
and its job is skipped — it contributes no hostnames — while every other
job in the list still runs to completion: the jobs before and after the
malformed entry produce exactly the outputs they produce on their own, and
the only new diagnostic line is the parse error for the malformed entry. -/
theorem malformed_descriptor_skipped (parse : String → Option (Nat × Nat))
    (scan : Nat × Nat → List String) (pre post : List String) (bad : String)
    (hbad : parse bad = none) :
    runJob parse scan bad = ([], ["Error parsing CIDR " ++ bad]) ∧
    (runJobs parse scan (pre ++ bad :: post)).1 =
      (runJobs parse scan pre).1 ++ [] :: (runJobs parse scan post).1 ∧
    (runJobs parse scan (pre ++ bad :: post)).2 =
      (runJobs parse scan pre).2 ++
        ("Error parsing CIDR " ++ bad) :: (runJobs parse scan post).2 := by
  have hjob : runJob parse scan bad = ([], ["Error parsing CIDR " ++ bad]) := by
    rw [runJob, hbad]
  refine ⟨hjob, ?_, ?_⟩
  · rw [runJobs_append]
    simp [runJobs, hjob]
  · rw [runJobs_append]
    simp [runJobs, hjob]

/-- Witness for C7: the malformed entry "not-a-range" between no job and
one valid job, with a trivial parser that rejects everything and an empty
scan. -/
theorem malformed_descriptor_skipped_witness :
    runJob (fun _ => none) (fun _ => []) "not-a-range" =
      ([], ["Error parsing CIDR " ++ "not-a-range"]) ∧
    (runJobs (fun _ => none) (fun _ => [])
        ([] ++ "not-a-range" :: ["10.0.0.0/31"])).1 =
      (runJobs (fun _ => none) (fun _ => []) []).1 ++
        [] :: (runJobs (fun _ => none) (fun _ => []) ["10.0.0.0/31"]).1 ∧
    (runJobs (fun _ => none) (fun _ => [])
        ([] ++ "not-a-range" :: ["10.0.0.0/31"])).2 =
      (runJobs (fun _ => none) (fun _ => []) []).2 ++
        ("Error parsing CIDR " ++ "not-a-range") ::
          (runJobs (fun _ => none) (fun _ => []) ["10.0.0.0/31"]).2 :=
  malformed_descriptor_skipped (fun _ => none) (fun _ => []) [] ["10.0.0.0/31"]
    "not-a-range" rfl

/-! ## The worker pool as an explicit concurrent execution (main.go:96-129)

A pool run over one job is determined by two nondeterministic choices made
by the Go scheduler: which worker receives each address from the shared
`ipChan` (workers pull; each worker processes its own addresses in enqueue
order, synchronously), and how the workers' sends to the result channel
interleave.  `consume` replays an interleaving: a schedule is the list of
worker indexes in the order the scheduler lets them send; `consume` fails
unless the schedule consumes every pending message of every worker. -/

def consume {α : Type} : List (List α) → List Nat → Option (List α)
  | ls, [] => if ls.all List.isEmpty then some [] else none
  | ls, w :: sched =>
    match ls[w]? with
    | some (a :: tl) => (consume (ls.set w tl) sched).map (a :: ·)
    | _ => none

/-- The addresses a worker receives: the sublist of the job's addresses
assigned to it, in enqueue order. -/
def assignedIPs (assign ips : List Nat) (w : Nat) : List Nat :=
  ((ips.zip assign).filter (fun q => q.2 == w)).map Prod.fst

/-- What one worker sends to the result channel, in order: its assigned
addresses looked up and filtered (main.go:104-116). -/
def workerOut (L : Nat → List String) (filt matchP : Option (String → Bool))
    (assign ips : List Nat) (w : Nat) : List String :=
  lookupFilterScan L filt matchP (assignedIPs assign ips w)

/-- `PoolRun N L filt matchP ips out` holds when some scheduler behaviour
of an `N`-worker pool over the addresses `ips` — an assignment of each
address to one of the `N` workers plus an interleaving of the workers'
sends — produces exactly the output sequence `out` on the result channel. -/
def PoolRun (N : Nat) (L : Nat → List String) (filt matchP : Option (String → Bool))
    (ips : List Nat) (out : List String) : Prop :=
  ∃ assign sched, assign.length = ips.length ∧ (∀ w ∈ assign, w < N) ∧
    consume ((List.range N).map (workerOut L filt matchP assign ips)) sched = some out

theorem consume_singleton {α : Type} :
    ∀ (sched : List Nat) (l out : List α), consume [l] sched = some out → out = l := by
  intro sched
  induction sched with
  | nil =>
    intro l out h
    cases l with
    | nil => simpa [consume] using h.symm
    | cons a tl => simp [consume, List.all_cons, List.isEmpty] at h
  | cons w rest ih =>
    intro l out h
    cases w with
    | zero =>
      cases l with
      | nil => simp [consume] at h
      | cons a tl =>
        simp only [consume, List.getElem?_cons_zero, List.set] at h
        obtain ⟨out1, hout1, rfl⟩ := Option.map_eq_some'.mp h
        rw [ih tl out1 hout1]
    | succ w' =>
      simp only [consume, List.getElem?_cons_succ, List.getElem?_nil] at h
      exact Option.noConfusion h

theorem assignedIPs_all_zero :
    ∀ (ips assign : List Nat), assign.length = ips.length → (∀ w ∈ assign, w = 0) →
      assignedIPs assign ips 0 = ips := by
  intro ips
  induction ips with
  | nil => intro assign _ _; simp [assignedIPs]
  | cons ip rest ih =>
    intro assign hlen hzero
    cases assign with
    | nil => simp at hlen
    | cons w ws =>
      have hw : w = 0 := hzero w (by simp)
      subst hw
      simp only [assignedIPs, List.zip_cons_cons, List.filter_cons]
      norm_num
      exact ih ws (by simpa using hlen) (fun x hx => hzero x (by simp [hx]))

/-- Claim C8: with worker count 1 and a deterministic lookup, the pool's
output is uniquely determined: every scheduler behaviour of the one-worker
pool produces exactly the sequential in-order scan of the job's addresses,
so output order equals ascending address order whenever the addresses are
ascending. -/
theorem pool_one_worker_sequential (L : Nat → List String)
    (filt matchP : Option (String → Bool)) (ips : List Nat) (out : List String)
    (h : PoolRun 1 L filt matchP ips out) :
    out = lookupFilterScan L filt matchP ips := by
  obtain ⟨assign, sched, hlen, hlt, hcons⟩ := h
  have hzero : ∀ w ∈ assign, w = 0 := fun w hw => Nat.lt_one_iff.mp (hlt w hw)
  have hr1 : List.range 1 = [0] := rfl
  rw [hr1, List.map_cons, List.map_nil] at hcons
  have := consume_singleton sched _ out hcons
  rw [this, workerOut, assignedIPs_all_zero ips assign hlen hzero]

/-- Witness for C8: one worker, two addresses, a constant one-hostname
lookup, no filters; the only possible output is the sequential one. -/
theorem pool_one_worker_sequential_witness :
    (["h.example.com", "h.example.com"] : List String) =
      lookupFilterScan (fun _ => ["h.example.com"]) none none [1, 2] :=
  pool_one_worker_sequential (fun _ => ["h.example.com"]) none none [1, 2]
    ["h.example.com", "h.example.com"]
    ⟨[0, 0], [0, 0], rfl, by decide, by rfl⟩

/-! ## The in-flight lookup bound (main.go:100-118)

`processCIDR` launches exactly `concurrency` worker goroutines per job
(main.go:100), and each worker's loop body calls
`fetchHostnamesFromShodan` synchronously (main.go:105): a worker starts a
new lookup only after its previous one finished.  A job execution is
abstracted to its trace of lookup start/finish events; the synchronous
call discipline means a worker never has two unfinished starts, which is
exactly the condition under which `runBusy` accepts a trace. -/

/-- One lookup lifecycle event of worker `w`. -/
inductive LookupEvent where
  | start (w : Nat)
  | finish (w : Nat)
deriving DecidableEq

/-- The worker a lookup event belongs to. -/
def LookupEvent.worker : LookupEvent → Nat
  | .start w => w
  | .finish w => w

/-- Replay a trace against the set of workers with an in-flight lookup
(`busy`).  `some b` is the busy set after the trace; `none` means the
trace violates the workers' synchronous call discipline (a worker started
a lookup while one was in flight, or finished one it never started). -/
def runBusy : List Nat → List LookupEvent → Option (List Nat)
  | busy, [] => some busy
  | busy, (.start w) :: tr => if w ∈ busy then none else runBusy (w :: busy) tr
  | busy, (.finish w) :: tr => if w ∈ busy then runBusy (busy.erase w) tr else none

theorem runBusy_invariant (N : Nat) :
    ∀ (tr : List LookupEvent) (busy b : List Nat),
      (∀ e ∈ tr, e.worker < N) → busy.Nodup → (∀ w ∈ busy, w < N) →
      runBusy busy tr = some b → b.Nodup ∧ ∀ w ∈ b, w < N := by
  intro tr
  induction tr with
  | nil =>
    intro busy b _ hnd hbd h
    obtain rfl : busy = b := by simpa [runBusy] using h
    exact ⟨hnd, hbd⟩
  | cons e rest ih =>
    intro busy b hev hnd hbd h
    have hev' : ∀ x ∈ rest, x.worker < N := fun x hx => hev x (by simp [hx])
    cases e with
    | start w =>
      by_cases hw : w ∈ busy
      · simp [runBusy, hw] at h
      · rw [runBusy, if_neg hw] at h
        exact ih (w :: busy) b hev' (List.nodup_cons.mpr ⟨hw, hnd⟩)
          (fun x hx => by
            rcases List.mem_cons.mp hx with rfl | hx
            · exact hev (.start x) (by simp)
            · exact hbd x hx) h
    | finish w =>
      by_cases hw : w ∈ busy
      · rw [runBusy, if_pos hw] at h
        exact ih (busy.erase w) b hev' (hnd.erase w)
          (fun x hx => hbd x (List.mem_of_mem_erase hx)) h
      · simp [runBusy, hw] at h

theorem nodup_bounded_length_le (N : Nat) (l : List Nat)
    (hnd : l.Nodup) (hbd : ∀ w ∈ l, w < N) : l.length ≤ N := by
  have hcard : l.toFinset.card = l.length := List.toFinset_card_of_nodup hnd
  have hsub : l.toFinset ⊆ Finset.range N := by
    intro x hx
    rw [Finset.mem_range]
    exact hbd x (List.mem_toFinset.mp hx)
  calc l.length = l.toFinset.card := hcard.symm
  _ ≤ (Finset.range N).card := Finset.card_le_card hsub
  _ = N := Finset.card_range N

/-- Claim C9: over one job, the number of concurrently in-flight Lookup
calls never exceeds the worker count `N`.  For every trace of lookup
start/finish events whose workers are the job's `N` workers (indexes
below `N`) and which respects each worker's synchronous call discipline,
the busy set after any prefix of the trace holds at most `N` workers. -/
theorem pool_inflight_bound (N : Nat) (tr pre suf : List LookupEvent) (b : List Nat)
    (hw : ∀ e ∈ tr, e.worker < N) (hsplit : tr = pre ++ suf)
    (hrun : runBusy [] pre = some b) :
    b.length ≤ N := by
  have hpre : ∀ e ∈ pre, e.worker < N := fun e he =>
    hw e (by rw [hsplit]; exact List.mem_append_left _ he)
  obtain ⟨hnd, hbd⟩ := runBusy_invariant N pre [] b hpre List.nodup_nil
    (fun w hw => absurd hw (List.not_mem_nil w)) hrun
  exact nodup_bounded_length_le N b hnd hbd

/-- Witness for C9: two workers both start a lookup, then worker 0
finishes; after the prefix of the two starts both workers are busy —
2 ≤ 2. -/
theorem pool_inflight_bound_witness :
    runBusy [] [LookupEvent.start 0, LookupEvent.start 1] = some [1, 0] ∧
    ([1, 0] : List Nat).length ≤ 2 :=
  ⟨by rfl,
   pool_inflight_bound 2
     [LookupEvent.start 0, LookupEvent.start 1, LookupEvent.finish 0]
     [LookupEvent.start 0, LookupEvent.start 1] [LookupEvent.finish 0] [1, 0]
     (by decide) rfl (by rfl)⟩
